import Mathlib

/-!
Verification of the local-library synchronization and naming-convention
resolver of the Vibe Studio app.

The embedding covers:
* the strict scanner module (its `SEQ_PATTERN` regular expression
  `Project_(.*)_Seq(\d+)_(\w+)\.(txt|png|wav|mp4)` with the `i` flag and its
  `scanSequences`),
* the main app variant with the inlined loose scanner (regular expression
  `Seq(\d+)` with the `i` flag), the drag-and-drop resolver
  `handleFileDrop`, the startup-recovery effect and `handleConnectFolder`,
* the storage module (`getStoredDirectory` with permission re-validation)
  and the inlined storage of the main app variant (no re-validation).

JavaScript strings are `String`/`List Char`; JavaScript regular-expression
matching (leftmost start position, greedy quantifiers with backtracking,
case-insensitive literals) is implemented as executable recursive functions.
Directory handles are modelled as records carrying the observations the code
makes of them: the handle name, the result of a permission request and the
result of enumerating the directory (`none` when enumeration throws).
Opaque file references are identified by their file names.
-/

namespace VibeStudio

/-- JavaScript word character class `\w`, that is `[A-Za-z0-9_]`. -/
def isWordChar (c : Char) : Bool :=
  c.isAlpha || c.isDigit || c = '_'

/-- Characters matched by an unflagged JavaScript `.`: everything except the
four line terminators. -/
def isDotChar (c : Char) : Bool :=
  !(c = '\n' || c = '\r' || c = '\u2028' || c = '\u2029')

/-- Case-insensitive literal matching: `ciStrip lit s` strips a prefix of `s`
that matches the (already lowercased) literal `lit` character by character,
returning the remainder, or `none` when the literal does not match. -/
def ciStrip : List Char → List Char → Option (List Char)
  | [], s => some s
  | _ :: _, [] => none
  | l :: ls, c :: cs => if c.toLower = l then ciStrip ls cs else none

/-- Lowercasing of a string, as JavaScript `toLowerCase` acts on the ASCII
file names handled here. -/
def lowerStr (s : String) : String :=
  ⟨s.data.map Char.toLower⟩

/-! ### The loose recognizer `/Seq(\d+)/i` (main app variant)

Both the inlined scanner and the drop handler of the main app variant call
`name.match(/Seq(\d+)/i)` and use capture group 1.  The regex is unanchored:
the engine tries successive start positions and at the first one where `Seq`
(case-insensitively) is followed by at least one digit it captures the
maximal digit run. -/

/-- Attempt the pattern `Seq(\d+)` at the start of `s`; on success return the
captured digit run. -/
def looseAt (s : List Char) : Option (List Char) :=
  match ciStrip ['s', 'e', 'q'] s with
  | none => none
  | some r =>
    if (r.takeWhile Char.isDigit).isEmpty then none
    else some (r.takeWhile Char.isDigit)

/-- Leftmost match of `Seq(\d+)` in `s`, returning capture group 1. -/
def looseFindL : List Char → Option (List Char)
  | [] => none
  | c :: cs =>
    match looseAt (c :: cs) with
    | some d => some d
    | none => looseFindL cs

/-- The recognizer used by the inlined scanner of the main app variant
(`name.match(/Seq(\d+)/i)`, capture group 1). -/
def scanRecognizerP1 (name : String) : Option String :=
  (looseFindL name.data).map List.asString

/-- The recognizer used by the drop handler of the main app variant
(`fileName.match(/Seq(\d+)/i)`, capture group 1). -/
def dropRecognizerP1 (fileName : String) : Option String :=
  (looseFindL fileName.data).map List.asString

/-! ### The strict recognizer `SEQ_PATTERN` (scanner module)

`SEQ_PATTERN = /Project_(.*)_Seq(\d+)_(\w+)\.(txt|png|wav|mp4)/i`, used via
`entry.name.match(SEQ_PATTERN)` — unanchored.  Inside a start position the
only backtracking choice is the greedy `(.*)`: `(\d+)` must stop at the
literal `_` (an underscore is not a digit) and `(\w+)` must stop at the
literal `.` (a dot is not a word character), so both are deterministic. -/

/-- Captures of a `SEQ_PATTERN` match: groups 1 (project name), 2 (sequence
id digits) and 3 (kind). -/
structure StrictCaps where
  projectName : List Char
  seqId : List Char
  kindCap : List Char
  deriving Repr, DecidableEq

/-- The extension alternation `(txt|png|wav|mp4)` matched case-insensitively
as a prefix of `s` (the overall pattern is unanchored, so trailing characters
are allowed). -/
def extOk (s : List Char) : Bool :=
  (ciStrip ['t', 'x', 't'] s).isSome || (ciStrip ['p', 'n', 'g'] s).isSome ||
  (ciStrip ['w', 'a', 'v'] s).isSome || (ciStrip ['m', 'p', '4'] s).isSome

/-- Match `_Seq(\d+)_(\w+)\.(txt|png|wav|mp4)` at the start of `s`, returning
the digit and kind captures. -/
def tailSeq (s : List Char) : Option (List Char × List Char) :=
  match ciStrip ['_', 's', 'e', 'q'] s with
  | none => none
  | some r =>
    if (r.takeWhile Char.isDigit).isEmpty then none
    else
      match r.dropWhile Char.isDigit with
      | '_' :: r2 =>
        if (r2.takeWhile isWordChar).isEmpty then none
        else
          match r2.dropWhile isWordChar with
          | '.' :: r4 =>
            if extOk r4 then
              some (r.takeWhile Char.isDigit, r2.takeWhile isWordChar)
            else none
          | _ => none
      | _ => none

/-- Greedy `(.*)` followed by the tail pattern: find the longest prefix of
dot-matching characters after which `tailSeq` succeeds, returning the
`(.*)` capture together with the tail captures. -/
def dotStar : List Char → Option (List Char × List Char × List Char)
  | [] => (tailSeq []).map (fun p => ([], p.1, p.2))
  | c :: r =>
    if isDotChar c then
      match dotStar r with
      | some (a, d, w) => some (c :: a, d, w)
      | none => (tailSeq (c :: r)).map (fun p => ([], p.1, p.2))
    else (tailSeq (c :: r)).map (fun p => ([], p.1, p.2))

/-- Attempt the whole strict pattern at the start of `s`. -/
def strictAt (s : List Char) : Option StrictCaps :=
  match ciStrip ['p', 'r', 'o', 'j', 'e', 'c', 't', '_'] s with
  | none => none
  | some r => (dotStar r).map (fun p => ⟨p.1, p.2.1, p.2.2⟩)

/-- Leftmost match of the strict pattern in `s`. -/
def strictFindL : List Char → Option StrictCaps
  | [] => none
  | c :: r =>
    match strictAt (c :: r) with
    | some caps => some caps
    | none => strictFindL r

/-- String-level strict recognizer: group captures of
`name.match(SEQ_PATTERN)` as `(projectName, seqId, type)`. -/
def SEQ_PATTERN_exec (name : String) : Option (String × String × String) :=
  (strictFindL name.data).map
    (fun c => (c.projectName.asString, c.seqId.asString, c.kindCap.asString))

/-! ### Directory entries and association-list maps

A JavaScript object used as a dictionary is an insertion-ordered association
list: assigning to an absent key appends, assigning to a present key updates
in place. -/

/-- One entry yielded by enumerating a directory handle: its name and its
`kind` field (`"file"` or `"directory"`). -/
structure FsEntry where
  name : String
  kind : String
  deriving Repr, DecidableEq

/-- Lookup in an association list (reading `obj[k]`, `none` for absent). -/
def assocFind (k : String) : List (String × α) → Option α
  | [] => none
  | (k', v) :: r => if k' = k then some v else assocFind k r

/-- Update the value at a present key in place. -/
def assocUpdate (k : String) (f : α → α) : List (String × α) → List (String × α)
  | [] => []
  | (k', v) :: r => if k' = k then (k', f v) :: r else (k', v) :: assocUpdate k f r

/-- Assignment `obj[k] = v`: update in place when present, append when
absent. -/
def setAssoc (k : String) (v : α) : List (String × α) → List (String × α)
  | [] => [(k, v)]
  | (k', v') :: r => if k' = k then (k', v) :: r else (k', v') :: setAssoc k v r

/-- Keys of an association list. -/
def aKeys (l : List (String × α)) : List String :=
  l.map Prod.fst

/-- Whether `pat` occurs at the start of `s`. -/
def startsWithL : List Char → List Char → Bool
  | [], _ => true
  | _ :: _, [] => false
  | p :: ps, c :: cs => p = c && startsWithL ps cs

/-- JavaScript `String.includes`: whether `pat` occurs anywhere in `s`. -/
def containsL (pat : List Char) : List Char → Bool
  | [] => startsWithL pat []
  | c :: cs => startsWithL pat (c :: cs) || containsL pat cs

/-- JavaScript `String.endsWith`: whether `pat` occurs at the end of `s`. -/
def endsWithL (pat s : List Char) : Bool :=
  startsWithL pat.reverse s.reverse

end VibeStudio

namespace VibeStudio.Scanner2

/-! ### The strict scanner module

```
for await (const entry of dirHandle.values()) {
  if (entry.kind === 'file') {
    const match = entry.name.match(SEQ_PATTERN);
    if (match) {
      const [_, projectName, seqId, type] = match;
      if (!library[seqId]) {
        library[seqId] = { id: seqId, projectName, assets: {} };
      }
      library[seqId].assets[type.toLowerCase()] = entry;
    }
  }
}
```
-/

/-- A library entry of the strict scanner: `{ id, projectName, assets }`,
the assets object mapping a lowercased kind to the file reference (the file
name stands for the opaque handle). -/
structure SeqEntry where
  id : String
  projectName : String
  assets : List (String × String)
  deriving Repr, DecidableEq

/-- The library built by the strict scanner. -/
abbrev Library := List (String × SeqEntry)

/-- Processing of one directory entry by the strict scanner. -/
def scanStep (library : Library) (entry : FsEntry) : Library :=
  if entry.kind = "file" then
    match SEQ_PATTERN_exec entry.name with
    | none => library
    | some (projectName, seqId, ty) =>
      let library' :=
        if (assocFind seqId library).isSome then library
        else library ++ [(seqId, ⟨seqId, projectName, []⟩)]
      assocUpdate seqId
        (fun en => { en with assets := setAssoc (lowerStr ty) entry.name en.assets })
        library'
  else library

/-- The strict scanner: fold the per-entry step over the enumeration of the
directory, starting from an empty library. -/
def scanSequences (entries : List FsEntry) : Library :=
  entries.foldl scanStep []

end VibeStudio.Scanner2

namespace VibeStudio.App1

/-! ### The main app variant: inlined scanner, storage, recovery, drop -/

open VibeStudio

/-- A library entry of the loose scanner: `{ assets: {} }` where the assets
object only ever receives the keys `"prompt"` and `"script"`. -/
structure SeqEntry where
  assets : List (String × String)
  deriving Repr, DecidableEq

/-- The library built by the loose scanner. -/
abbrev Library := List (String × SeqEntry)

/-- Processing of one directory entry by the inlined loose scanner:
match `/Seq(\d+)/i`, create the entry when absent, then classify the file by
substring and extension checks on the lowercased name. -/
def scanStep (library : Library) (entry : FsEntry) : Library :=
  if entry.kind = "file" then
    match scanRecognizerP1 entry.name with
    | none => library
    | some seqId =>
      let library' :=
        if (assocFind seqId library).isSome then library
        else library ++ [(seqId, ⟨[]⟩)]
      let lowerName := lowerStr entry.name
      if containsL "prompt".data lowerName.data && endsWithL ".txt".data lowerName.data then
        assocUpdate seqId (fun en => ⟨setAssoc "prompt" entry.name en.assets⟩) library'
      else if endsWithL ".txt".data lowerName.data then
        assocUpdate seqId (fun en => ⟨setAssoc "script" entry.name en.assets⟩) library'
      else library'
  else library

/-- The inlined loose scanner of the main app variant. -/
def scanSequences (entries : List FsEntry) : Library :=
  entries.foldl scanStep []

/-- The two text fields the drop handler can auto-fill. -/
structure Fields where
  prompt : String
  script : String
  deriving Repr, DecidableEq

/-- The drag-and-drop handler `handleFileDrop`.  `contents` models
`handle.getFile()` followed by `file.text()` for a file reference: `.ok` is
the text read, `.error` a rejected promise.  The handler inspects only the
first dropped file; on a recognizer match it looks up the sequence in the
library and fills each field whose asset is present, reading the prompt
before the script (a failed read aborts the handler). -/
def handleFileDrop (contents : String → Except String String)
    (projectLibrary : Library) (droppedFiles : List String)
    (st : Fields) : Except String Fields :=
  match droppedFiles with
  | [] => Except.ok st
  | fileName :: _ =>
    match dropRecognizerP1 fileName with
    | none => Except.ok st
    | some seqId =>
      match assocFind seqId projectLibrary with
      | none => Except.ok st
      | some sequenceData =>
        let afterPrompt : Except String Fields :=
          match assocFind "prompt" sequenceData.assets with
          | some h => (contents h).map (fun t => { st with prompt := t })
          | none => Except.ok st
        match afterPrompt with
        | Except.error e => Except.error e
        | Except.ok st1 =>
          match assocFind "script" sequenceData.assets with
          | some h => (contents h).map (fun t => { st1 with script := t })
          | none => Except.ok st1

end VibeStudio.App1

namespace VibeStudio

/-! ### Directory handles, storage and app lifecycle

A directory handle is modelled by the observations the code makes of it: its
name, what `requestPermission({ mode: 'readwrite' })` would answer, and what
enumerating it would yield (`none` when enumeration throws, for instance
because the permission grant has expired). -/

/-- A stored or picked directory handle. -/
structure DirHandle where
  name : String
  permissionResult : String
  entriesResult : Option (List FsEntry)
  deriving Repr, DecidableEq

/-- Running a scanner against a directory handle: enumeration either throws
(`none`) or yields the entry list, which the scanner folds over. -/
def runScanApp1 (h : DirHandle) : Option App1.Library :=
  (h.entriesResult).map App1.scanSequences

end VibeStudio

namespace VibeStudio.Storage

/-! ### The storage module (`src/lib/storage.ts`)

```
export async function getStoredDirectory() {
  const handle = await get('project-root');
  if (handle) {
    const status = await handle.requestPermission({ mode: 'readwrite' });
    return status === 'granted'? handle : null;
  }
  return null;
}
```
-/

open VibeStudio

/-- Permission-re-validating retrieval of the stored directory handle:
`stored` is the value under the `project-root` key. -/
def getStoredDirectory (stored : Option DirHandle) : Option DirHandle :=
  match stored with
  | none => none
  | some handle =>
    if handle.permissionResult = "granted" then some handle else none

end VibeStudio.Storage

namespace VibeStudio.App1

open VibeStudio

/-- The inlined storage retrieval of the main app variant: a bare
`get(STORAGE_KEY)` with no permission re-validation. -/
def getStoredDirectory (stored : Option DirHandle) : Option DirHandle :=
  stored

/-- The React state of the main app variant that the recovery effect and the
folder picker touch. -/
structure AppState where
  prompt : String
  script : String
  projectLibrary : Library
  currentFolder : Option DirHandle
  deriving Repr, DecidableEq

/-- The startup-recovery effect: read the stored handle (inlined storage, no
re-validation); when present, set it as the current folder and attempt a
scan inside `try`/`catch` — a throwing scan is logged and leaves the library
as it was. -/
def init (stored : Option DirHandle) (st : AppState) : AppState :=
  match getStoredDirectory stored with
  | none => st
  | some handle =>
    let st1 := { st with currentFolder := some handle }
    match runScanApp1 handle with
    | some library => { st1 with projectLibrary := library }
    | none => st1

/-- The folder picker `handleConnectFolder`: `picked` is the outcome of
`window.showDirectoryPicker` (`none` when it throws, e.g. user dismissal).
On success the handle is saved and set as current folder, then the scan runs;
the surrounding `try`/`catch` means a throwing scan leaves the library as it
was.  Returns the new app state together with the new stored value. -/
def handleConnectFolder (picked : Option DirHandle) (stored : Option DirHandle)
    (st : AppState) : AppState × Option DirHandle :=
  match picked with
  | none => (st, stored)
  | some handle =>
    let stored' := some handle
    let st1 := { st with currentFolder := some handle }
    match runScanApp1 handle with
    | some library => ({ st1 with projectLibrary := library }, stored')
    | none => (st1, stored')

end VibeStudio.App1

namespace VibeStudio

/-! ### Spec-side predicates (stated from the specification's words)

These two predicates are not translations of the source: they formalise the
specification's description of the strict convention, to be compared with
the behaviour of the source recognizer. -/

/-- An extension from the fixed allowed set, compared case-insensitively. -/
def ExtLower (e : List Char) : Prop :=
  e.map Char.toLower = "txt".data ∨ e.map Char.toLower = "png".data ∨
  e.map Char.toLower = "wav".data ∨ e.map Char.toLower = "mp4".data

/-- Spec-side predicate: the filename matches
`Project_<name>_Seq<digits>_<kind>.<ext>` exactly (the whole string, compared
case-insensitively on the literal parts, `<ext>` in the allowed set). -/
def SpecStrictExact (s : List Char) : Prop :=
  ∃ pr nm sq d w e : List Char,
    s = pr ++ nm ++ sq ++ d ++ '_' :: w ++ '.' :: e
    ∧ pr.map Char.toLower = "project_".data
    ∧ sq.map Char.toLower = "_seq".data
    ∧ d ≠ [] ∧ (∀ c ∈ d, c.isDigit = true)
    ∧ w ≠ [] ∧ (∀ c ∈ w, isWordChar c = true)
    ∧ ExtLower e

/-- Spec-side predicate: the filename contains (anywhere) a substring
matching `Project_<name>_Seq<digits>_<kind>.<ext>` with the `<name>` part
restricted to characters an unflagged `.` can match, as the source pattern
demands, with arbitrary characters before and after the match. -/
def ContainsSeqPattern (s : List Char) : Prop :=
  ∃ p pr a sq d w e q : List Char,
    s = p ++ pr ++ a ++ sq ++ d ++ '_' :: w ++ '.' :: e ++ q
    ∧ pr.map Char.toLower = "project_".data
    ∧ (∀ c ∈ a, isDotChar c = true)
    ∧ sq.map Char.toLower = "_seq".data
    ∧ d ≠ [] ∧ (∀ c ∈ d, c.isDigit = true)
    ∧ w ≠ [] ∧ (∀ c ∈ w, isWordChar c = true)
    ∧ ExtLower e

/-- A scan-produced library pair is witnessed by a source file: the entry's
`id` is the key it is stored under, and some file of the scanned directory
was captured with exactly this entry's `projectName` and this key as its
sequence ID. -/
def EntryWitnessed (sources : List FsEntry) (sid : String)
    (en : Scanner2.SeqEntry) : Prop :=
  en.id = sid
  ∧ ∃ e ∈ sources, e.kind = "file"
      ∧ ∃ ty, SEQ_PATTERN_exec e.name = some (en.projectName, sid, ty)

/-! ### Helper lemmas about the association-list operations -/

theorem aKeys_assocUpdate (k : String) (f : α → α) :
    ∀ l : List (String × α), aKeys (assocUpdate k f l) = aKeys l := by
  intro l
  induction l with
  | nil => rfl
  | cons p r ih =>
    obtain ⟨k', v⟩ := p
    simp only [assocUpdate]
    split
    · simp [aKeys]
    · simpa [aKeys] using ih

theorem assocFind_eq_none_iff (k : String) :
    ∀ l : List (String × α), assocFind k l = none ↔ k ∉ aKeys l := by
  intro l
  induction l with
  | nil => simp [assocFind, aKeys]
  | cons p r ih =>
    obtain ⟨k', v⟩ := p
    simp only [assocFind, aKeys, List.map_cons, List.mem_cons]
    split
    · rename_i h
      subst h
      simp
    · rename_i h
      simp only [aKeys] at ih
      rw [ih]
      constructor
      · intro hk hc
        rcases hc with hc | hc
        · exact h hc.symm
        · exact hk hc
      · intro hk hc
        exact hk (Or.inr hc)

theorem assocFind_assocUpdate_self (k : String) (f : α → α) :
    ∀ l : List (String × α),
      assocFind k (assocUpdate k f l) = (assocFind k l).map f := by
  intro l
  induction l with
  | nil => rfl
  | cons p r ih =>
    obtain ⟨k', v⟩ := p
    simp only [assocUpdate]
    split
    · rename_i h
      simp [assocFind, h]
    · rename_i h
      simp [assocFind, h, ih]

theorem assocFind_setAssoc_self (k : String) (v : α) :
    ∀ l : List (String × α), assocFind k (setAssoc k v l) = some v := by
  intro l
  induction l with
  | nil => simp [setAssoc, assocFind]
  | cons p r ih =>
    obtain ⟨k', v'⟩ := p
    simp only [setAssoc]
    split
    · rename_i h
      simp [assocFind, h]
    · rename_i h
      simp [assocFind, h, ih]

theorem assocFind_setAssoc_ne (k k' : String) (v : α) (hne : k' ≠ k) :
    ∀ l : List (String × α), assocFind k' (setAssoc k v l) = assocFind k' l := by
  intro l
  have hne' : k ≠ k' := fun h => hne h.symm
  induction l with
  | nil => simp [setAssoc, assocFind, hne']
  | cons p r ih =>
    obtain ⟨k'', v'⟩ := p
    simp only [setAssoc]
    split
    · rename_i h
      subst h
      simp [assocFind, hne']
    · simp [assocFind, ih]

theorem mem_assocUpdate (k : String) (f : α → α) :
    ∀ (l : List (String × α)) (p : String × α), p ∈ assocUpdate k f l →
      p ∈ l ∨ ∃ v, (k, v) ∈ l ∧ p = (k, f v) := by
  intro l
  induction l with
  | nil => simp [assocUpdate]
  | cons q r ih =>
    obtain ⟨k', v'⟩ := q
    intro p hp
    simp only [assocUpdate] at hp
    by_cases h : k' = k
    · rw [if_pos h] at hp
      subst h
      rcases List.mem_cons.mp hp with h1 | h1
      · exact Or.inr ⟨v', by simp [h1]⟩
      · exact Or.inl (List.mem_cons_of_mem _ h1)
    · rw [if_neg h] at hp
      rcases List.mem_cons.mp hp with h1 | h1
      · exact Or.inl (by simp [h1])
      · rcases ih p h1 with h2 | ⟨v, hv, hpv⟩
        · exact Or.inl (List.mem_cons_of_mem _ h2)
        · exact Or.inr ⟨v, List.mem_cons_of_mem _ hv, hpv⟩

end VibeStudio

namespace VibeStudio

/-! ### Skip lemmas for non-matching entries -/

theorem scanStep2_skip (lib : Scanner2.Library) (e : FsEntry)
    (h : SEQ_PATTERN_exec e.name = none) : Scanner2.scanStep lib e = lib := by
  unfold Scanner2.scanStep
  split
  · rw [h]
  · rfl

theorem scanStepL_skip (lib : App1.Library) (e : FsEntry)
    (h : scanRecognizerP1 e.name = none) : App1.scanStep lib e = lib := by
  unfold App1.scanStep
  split
  · rw [h]
  · rfl

theorem scan2_all_skip :
    ∀ es : List FsEntry, (∀ e ∈ es, SEQ_PATTERN_exec e.name = none) →
      Scanner2.scanSequences es = [] := by
  have aux : ∀ (es : List FsEntry) (lib : Scanner2.Library),
      (∀ e ∈ es, SEQ_PATTERN_exec e.name = none) →
      es.foldl Scanner2.scanStep lib = lib := by
    intro es
    induction es with
    | nil => intro lib _; rfl
    | cons e r ih =>
      intro lib h
      simp only [List.foldl_cons]
      rw [scanStep2_skip lib e (h e (List.mem_cons_self e r))]
      exact ih lib fun e' he' => h e' (List.mem_cons_of_mem e he')
  exact fun es h => aux es [] h

theorem scanL_all_skip :
    ∀ es : List FsEntry, (∀ e ∈ es, scanRecognizerP1 e.name = none) →
      App1.scanSequences es = [] := by
  have aux : ∀ (es : List FsEntry) (lib : App1.Library),
      (∀ e ∈ es, scanRecognizerP1 e.name = none) →
      es.foldl App1.scanStep lib = lib := by
    intro es
    induction es with
    | nil => intro lib _; rfl
    | cons e r ih =>
      intro lib h
      simp only [List.foldl_cons]
      rw [scanStepL_skip lib e (h e (List.mem_cons_self e r))]
      exact ih lib fun e' he' => h e' (List.mem_cons_of_mem e he')
  exact fun es h => aux es [] h

end VibeStudio

namespace VibeStudio

/-! ### Claims C3, C4, C5, C6, C7, C8 -/

/-- C8: for every filename that does not match the implemented filename
convention, scanning produces no Library entry for it and raises no error —
the entry is silently skipped.  Stated for both implemented scanners: a
non-matching file leaves the library of the scan step unchanged, and a
directory all of whose files are non-matching scans to the empty library
(the scan functions are total, so no error can arise from a mismatch). -/
theorem C8_nonmatching_silently_skipped :
    (∀ (lib : Scanner2.Library) (e : FsEntry),
      SEQ_PATTERN_exec e.name = none → Scanner2.scanStep lib e = lib)
    ∧ (∀ (lib : App1.Library) (e : FsEntry),
      scanRecognizerP1 e.name = none → App1.scanStep lib e = lib)
    ∧ (∀ es : List FsEntry, (∀ e ∈ es, SEQ_PATTERN_exec e.name = none) →
      Scanner2.scanSequences es = [])
    ∧ (∀ es : List FsEntry, (∀ e ∈ es, scanRecognizerP1 e.name = none) →
      App1.scanSequences es = []) :=
  ⟨fun lib e h => scanStep2_skip lib e h,
   fun lib e h => scanStepL_skip lib e h,
   scan2_all_skip,
   scanL_all_skip⟩

/-- C8 witness: the non-matching file `notes.txt` is skipped by both
scanners, and a directory holding only it scans to the empty library. -/
theorem C8_nonmatching_silently_skipped_witness :
    Scanner2.scanStep [] ⟨"notes.txt", "file"⟩ = []
    ∧ App1.scanStep [] ⟨"notes.txt", "file"⟩ = []
    ∧ Scanner2.scanSequences [⟨"notes.txt", "file"⟩] = []
    ∧ App1.scanSequences [⟨"notes.txt", "file"⟩] = [] :=
  ⟨C8_nonmatching_silently_skipped.1 [] ⟨"notes.txt", "file"⟩ (by decide),
   C8_nonmatching_silently_skipped.2.1 [] ⟨"notes.txt", "file"⟩ (by decide),
   C8_nonmatching_silently_skipped.2.2.1 [⟨"notes.txt", "file"⟩]
     (by intro e he; rw [List.mem_singleton] at he; subst he; decide),
   C8_nonmatching_silently_skipped.2.2.2 [⟨"notes.txt", "file"⟩]
     (by intro e he; rw [List.mem_singleton] at he; subst he; decide)⟩

/-- C3 counterexample: the claim that the Drop Resolver's recognizer and the
Scanner's recognizer agree on every filename fails against the strict
scanner module: on `Seq01_Prompt.txt` the Drop Resolver extracts the
sequence ID `01` while the strict scanner's `SEQ_PATTERN` recognizer
extracts nothing. -/
theorem C3_recognizer_divergence_counterexample :
    dropRecognizerP1 "Seq01_Prompt.txt" = some "01"
    ∧ SEQ_PATTERN_exec "Seq01_Prompt.txt" = none := by
  constructor
  · decide
  · decide

/-- C3 (amended): the Drop Resolver's recognizer agrees, on every filename
and with equal extracted IDs, with the recognizer of the scanner inlined in
the same app variant (both are `/Seq(\d+)/i`); the strict scanner module
uses a different recognizer (see the counterexample). -/
theorem C3_drop_scan_recognizers_agree (name : String) :
    dropRecognizerP1 name = scanRecognizerP1 name := rfl

/-- C5: if a scan fails as a whole (directory enumeration throws), the
previously held Library is preserved unchanged, both on the startup-recovery
path and on the connect-folder path. -/
theorem C5_scan_failure_preserves_library
    (st : App1.AppState) (stored : Option DirHandle) (h : DirHandle)
    (hfail : h.entriesResult = none) :
    (App1.init (some h) st).projectLibrary = st.projectLibrary
    ∧ ((App1.handleConnectFolder (some h) stored st).1).projectLibrary
        = st.projectLibrary := by
  constructor
  · simp [App1.init, App1.getStoredDirectory, runScanApp1, hfail]
  · simp [App1.handleConnectFolder, runScanApp1, hfail]

/-- C5 witness: a concrete handle whose enumeration throws leaves a concrete
nonempty library untouched on both paths. -/
theorem C5_scan_failure_preserves_library_witness :
    (App1.init (some ⟨"vault", "granted", none⟩)
        ⟨"p", "s", [("01", ⟨[("script", "a.txt")]⟩)], none⟩).projectLibrary
      = [("01", ⟨[("script", "a.txt")]⟩)]
    ∧ ((App1.handleConnectFolder (some ⟨"vault", "granted", none⟩) none
        ⟨"p", "s", [("01", ⟨[("script", "a.txt")]⟩)], none⟩).1).projectLibrary
      = [("01", ⟨[("script", "a.txt")]⟩)] :=
  C5_scan_failure_preserves_library
    ⟨"p", "s", [("01", ⟨[("script", "a.txt")]⟩)], none⟩
    none ⟨"vault", "granted", none⟩ rfl

/-- C6: dropping a file whose filename contains no sequence ID is a no-op:
the handler returns the fields unchanged and no error escapes. -/
theorem C6_drop_no_match_noop
    (contents : String → Except String String) (lib : App1.Library)
    (f : String) (rest : List String) (st : App1.Fields)
    (h : dropRecognizerP1 f = none) :
    App1.handleFileDrop contents lib (f :: rest) st = Except.ok st := by
  simp [App1.handleFileDrop, h]

/-- C6 witness: dropping `readme.md` over a nonempty library changes
nothing even when every file read would fail. -/
theorem C6_drop_no_match_noop_witness :
    App1.handleFileDrop (fun _ => Except.error "boom")
      [("01", ⟨[("prompt", "p.txt")]⟩)] ["readme.md"] ⟨"p0", "s0"⟩
      = Except.ok ⟨"p0", "s0"⟩ :=
  C6_drop_no_match_noop (fun _ => Except.error "boom")
    [("01", ⟨[("prompt", "p.txt")]⟩)] "readme.md" [] ⟨"p0", "s0"⟩ (by decide)

/-- C7: dropping a file whose extracted sequence ID is in the Library but
whose entry has no `prompt` asset leaves the prompt field unchanged, a
present `script` asset still populates the script field, and a missing
companion kind is never an error (with both kinds absent the handler
returns the fields unchanged). -/
theorem C7_drop_missing_prompt
    (contents : String → Except String String) (lib : App1.Library)
    (f : String) (rest : List String) (st : App1.Fields)
    (seqId : String) (en : App1.SeqEntry)
    (hf : dropRecognizerP1 f = some seqId)
    (hlib : assocFind seqId lib = some en)
    (hnp : assocFind "prompt" en.assets = none) :
    (∀ scriptFile txt, assocFind "script" en.assets = some scriptFile →
      contents scriptFile = Except.ok txt →
      App1.handleFileDrop contents lib (f :: rest) st
        = Except.ok ⟨st.prompt, txt⟩)
    ∧ (assocFind "script" en.assets = none →
      App1.handleFileDrop contents lib (f :: rest) st = Except.ok st) := by
  constructor
  · intro scriptFile txt hs hc
    simp [App1.handleFileDrop, hf, hlib, hnp, hs, hc, Except.map]
  · intro hs
    simp [App1.handleFileDrop, hf, hlib, hnp, hs]

/-- C7 witness: a concrete drop of `Seq01_View.jpg` with an entry holding
only a script asset fills the script field and leaves the prompt field
alone; with an empty entry nothing changes. -/
theorem C7_drop_missing_prompt_witness :
    App1.handleFileDrop
        (fun n => if n = "s.txt" then Except.ok "hello" else Except.error "no")
        [("01", ⟨[("script", "s.txt")]⟩)] ["Seq01_View.jpg"] ⟨"p0", "s0"⟩
      = Except.ok ⟨"p0", "hello"⟩
    ∧ App1.handleFileDrop
        (fun n => if n = "s.txt" then Except.ok "hello" else Except.error "no")
        [("02", ⟨[]⟩)] ["Seq02_View.jpg"] ⟨"p0", "s0"⟩
      = Except.ok ⟨"p0", "s0"⟩ :=
  ⟨(C7_drop_missing_prompt
      (fun n => if n = "s.txt" then Except.ok "hello" else Except.error "no")
      [("01", ⟨[("script", "s.txt")]⟩)] "Seq01_View.jpg" [] ⟨"p0", "s0"⟩
      "01" ⟨[("script", "s.txt")]⟩ (by decide) (by decide) (by decide)).1
      "s.txt" "hello" (by decide) (by rfl),
   (C7_drop_missing_prompt
      (fun n => if n = "s.txt" then Except.ok "hello" else Except.error "no")
      [("02", ⟨[]⟩)] "Seq02_View.jpg" [] ⟨"p0", "s0"⟩
      "02" ⟨[]⟩ (by decide) (by decide) (by decide)).2 (by decide)⟩

/-- C4 counterexample: the claim fails on the main app variant's startup
recovery: with a stored handle whose permission is `denied` (and whose
enumeration therefore throws), the recovery effect performs no permission
re-validation and does not behave as if no directory were connected — it
sets the stored handle as the current folder. -/
theorem C4_no_revalidation_counterexample :
    ("denied" : String) ≠ "granted"
    ∧ (App1.init (some ⟨"D", "denied", none⟩) ⟨"", "", [], none⟩).currentFolder
        = some ⟨"D", "denied", none⟩ := by
  constructor
  · decide
  · rfl

/-- C4 (amended): the storage module's `getStoredDirectory` does re-validate
permission before handing out the stored handle and yields no directory
unless the answer is `granted`; the main app variant's startup recovery,
however, uses the stored handle without re-validation — it sets it as the
current folder unconditionally, and a throwing scan is caught, leaving the
rest of the state unchanged (no crash). -/
theorem C4_revalidation
    (stored : Option DirHandle) (h : DirHandle) (st : App1.AppState) :
    (stored = some h → h.permissionResult ≠ "granted" →
      Storage.getStoredDirectory stored = none)
    ∧ (h.entriesResult = none →
      App1.init (some h) st = { st with currentFolder := some h }) := by
  constructor
  · intro hs hp
    subst hs
    simp [Storage.getStoredDirectory, hp]
  · intro hfail
    simp [App1.init, App1.getStoredDirectory, runScanApp1, hfail]

/-- C4 witness: concrete denied stored handle — the storage module returns
none, the app recovery nevertheless sets it as current folder. -/
theorem C4_revalidation_witness :
    Storage.getStoredDirectory (some ⟨"D", "denied", none⟩) = none
    ∧ App1.init (some ⟨"D", "denied", none⟩) ⟨"", "", [], none⟩
        = ⟨"", "", [], some ⟨"D", "denied", none⟩⟩ :=
  ⟨(C4_revalidation (some ⟨"D", "denied", none⟩) ⟨"D", "denied", none⟩
      ⟨"", "", [], none⟩).1 rfl (by decide),
   (C4_revalidation (some ⟨"D", "denied", none⟩) ⟨"D", "denied", none⟩
      ⟨"", "", [], none⟩).2 rfl⟩

end VibeStudio

namespace VibeStudio

/-! ### Key uniqueness of the strict scanner -/

theorem aKeys_append_single (l : List (String × α)) (k : String) (v : α) :
    aKeys (l ++ [(k, v)]) = aKeys l ++ [k] := by
  simp [aKeys]

theorem scanStep2_nodup (lib : Scanner2.Library) (e : FsEntry)
    (h : (aKeys lib).Nodup) : (aKeys (Scanner2.scanStep lib e)).Nodup := by
  unfold Scanner2.scanStep
  split
  · cases hm : SEQ_PATTERN_exec e.name with
    | none => simpa using h
    | some c =>
      obtain ⟨pn, sid, ty⟩ := c
      simp only
      cases hf : assocFind sid lib with
      | some v =>
        simp only [hf, Option.isSome_some, if_true, aKeys_assocUpdate]
        exact h
      | none =>
        have hnotin : sid ∉ aKeys lib := (assocFind_eq_none_iff sid lib).mp hf
        simp only [hf, Option.isSome_none, Bool.false_eq_true, if_false,
          aKeys_assocUpdate, aKeys_append_single]
        simp [List.nodup_append, h, hnotin]
  · exact h

theorem scan2_foldl_nodup :
    ∀ (es : List FsEntry) (lib : Scanner2.Library),
      (aKeys lib).Nodup → (aKeys (es.foldl Scanner2.scanStep lib)).Nodup := by
  intro es
  induction es with
  | nil => intro lib h; exact h
  | cons e r ih =>
    intro lib h
    simp only [List.foldl_cons]
    exact ih _ (scanStep2_nodup lib e h)

theorem scan2_append_one (es : List FsEntry) (e : FsEntry) :
    Scanner2.scanSequences (es ++ [e])
      = Scanner2.scanStep (Scanner2.scanSequences es) e := by
  simp [Scanner2.scanSequences, List.foldl_append]

theorem scanStep2_present (lib : Scanner2.Library) (e : FsEntry)
    (pn sid ty : String) (en : Scanner2.SeqEntry)
    (hk : e.kind = "file") (hc : SEQ_PATTERN_exec e.name = some (pn, sid, ty))
    (hfound : assocFind sid lib = some en) :
    Scanner2.scanStep lib e
      = assocUpdate sid
          (fun q => { q with assets := setAssoc (lowerStr ty) e.name q.assets })
          lib := by
  unfold Scanner2.scanStep
  rw [if_pos hk, hc]
  simp only [hfound, Option.isSome_some, if_true]

/-- C1: within one scan pass of the strict scanner, sequence IDs are unique
across library entries for every directory contents and enumeration order; a
later file matching an already-seen ID merges into the existing entry's
assets map (the entry set is unchanged and the asset under the lowercased
kind is the later file: last-match-wins per kind); and two files with the
same ID but different kinds end up as two distinct keys of one entry's
assets map. -/
theorem C1_scan_merge_invariant :
    (∀ entries : List FsEntry, (aKeys (Scanner2.scanSequences entries)).Nodup)
    ∧ (∀ (entries : List FsEntry) (e : FsEntry) (pn sid ty : String)
        (en : Scanner2.SeqEntry),
        e.kind = "file" → SEQ_PATTERN_exec e.name = some (pn, sid, ty) →
        assocFind sid (Scanner2.scanSequences entries) = some en →
        aKeys (Scanner2.scanSequences (entries ++ [e]))
            = aKeys (Scanner2.scanSequences entries)
        ∧ assocFind sid (Scanner2.scanSequences (entries ++ [e]))
            = some { en with assets := setAssoc (lowerStr ty) e.name en.assets }
        ∧ assocFind (lowerStr ty) (setAssoc (lowerStr ty) e.name en.assets)
            = some e.name)
    ∧ (∀ (e1 e2 : FsEntry) (pn1 pn2 sid t1 t2 : String),
        e1.kind = "file" → e2.kind = "file" →
        SEQ_PATTERN_exec e1.name = some (pn1, sid, t1) →
        SEQ_PATTERN_exec e2.name = some (pn2, sid, t2) →
        lowerStr t1 ≠ lowerStr t2 →
        Scanner2.scanSequences [e1, e2]
            = [(sid, ⟨sid, pn1,
                [(lowerStr t1, e1.name), (lowerStr t2, e2.name)]⟩)]) := by
  refine ⟨?_, ?_, ?_⟩
  · intro entries
    exact scan2_foldl_nodup entries [] (by simp [aKeys])
  · intro entries e pn sid ty en hk hc hfound
    rw [scan2_append_one, scanStep2_present _ e pn sid ty en hk hc hfound]
    refine ⟨aKeys_assocUpdate _ _ _, ?_, assocFind_setAssoc_self _ _ _⟩
    rw [assocFind_assocUpdate_self, hfound]
    rfl
  · intro e1 e2 pn1 pn2 sid t1 t2 hk1 hk2 hc1 hc2 hne
    have hstep1 : Scanner2.scanStep [] e1
        = [(sid, ⟨sid, pn1, [(lowerStr t1, e1.name)]⟩)] := by
      unfold Scanner2.scanStep
      rw [if_pos hk1, hc1]
      simp [assocFind, assocUpdate, setAssoc]
    have hstep2 : Scanner2.scanStep [(sid, (⟨sid, pn1, [(lowerStr t1, e1.name)]⟩ : Scanner2.SeqEntry))] e2
        = [(sid, ⟨sid, pn1, [(lowerStr t1, e1.name), (lowerStr t2, e2.name)]⟩)] := by
      unfold Scanner2.scanStep
      rw [if_pos hk2, hc2]
      simp [assocFind, assocUpdate, setAssoc, hne]
    show Scanner2.scanStep (Scanner2.scanStep [] e1) e2 = _
    rw [hstep1, hstep2]

/-- C1 witness: two `Seq01` files with equal kinds merge last-wins; a third
with a different kind lands as a second key of the same entry; keys stay
unique. -/
theorem C1_scan_merge_invariant_witness :
    (aKeys (Scanner2.scanSequences
        [⟨"Project_X_Seq01_Script.txt", "file"⟩])).Nodup
    ∧ aKeys (Scanner2.scanSequences
          ([⟨"Project_X_Seq01_Script.txt", "file"⟩]
            ++ [⟨"Project_Y_Seq01_Script.txt", "file"⟩]))
        = aKeys (Scanner2.scanSequences [⟨"Project_X_Seq01_Script.txt", "file"⟩])
    ∧ assocFind "01" (Scanner2.scanSequences
          ([⟨"Project_X_Seq01_Script.txt", "file"⟩]
            ++ [⟨"Project_Y_Seq01_Script.txt", "file"⟩]))
        = some ⟨"01", "X", [("script", "Project_Y_Seq01_Script.txt")]⟩
    ∧ Scanner2.scanSequences
          [⟨"Project_X_Seq01_Script.txt", "file"⟩,
           ⟨"Project_X_Seq01_Prompt.txt", "file"⟩]
        = [("01", ⟨"01", "X",
            [("script", "Project_X_Seq01_Script.txt"),
             ("prompt", "Project_X_Seq01_Prompt.txt")]⟩)] := by
  have hmerge := C1_scan_merge_invariant.2.1
    [⟨"Project_X_Seq01_Script.txt", "file"⟩]
    ⟨"Project_Y_Seq01_Script.txt", "file"⟩
    "Y" "01" "Script" ⟨"01", "X", [("script", "Project_X_Seq01_Script.txt")]⟩
    rfl (by decide) (by decide)
  refine ⟨C1_scan_merge_invariant.1 [⟨"Project_X_Seq01_Script.txt", "file"⟩],
    hmerge.1, ?_, ?_⟩
  · rw [hmerge.2.1]
    decide
  · exact C1_scan_merge_invariant.2.2
      ⟨"Project_X_Seq01_Script.txt", "file"⟩
      ⟨"Project_X_Seq01_Prompt.txt", "file"⟩
      "X" "X" "01" "Script" "Prompt" rfl rfl (by decide) (by decide) (by decide)

end VibeStudio

namespace VibeStudio

/-! ### Provenance of scan-produced entries -/

theorem scanStep2_witnessed (lib : Scanner2.Library) (e : FsEntry)
    (S : List FsEntry) (h : ∀ q ∈ lib, EntryWitnessed S q.1 q.2) :
    ∀ q ∈ Scanner2.scanStep lib e, EntryWitnessed (S ++ [e]) q.1 q.2 := by
  have mono : ∀ sid en, EntryWitnessed S sid en →
      EntryWitnessed (S ++ [e]) sid en := by
    rintro sid en ⟨hid, e', he', hk, ty, hc⟩
    exact ⟨hid, e', List.mem_append_left _ he', hk, ty, hc⟩
  intro q hq
  unfold Scanner2.scanStep at hq
  by_cases hk : e.kind = "file"
  case neg => rw [if_neg hk] at hq; exact mono _ _ (h q hq)
  rw [if_pos hk] at hq
  cases hm : SEQ_PATTERN_exec e.name with
  | none => rw [hm] at hq; exact mono _ _ (h q hq)
  | some c =>
    obtain ⟨pn, sid, ty⟩ := c
    rw [hm] at hq
    simp only at hq
    have hlib' : ∀ p ∈ (if (assocFind sid lib).isSome then lib
        else lib ++ [(sid, (⟨sid, pn, []⟩ : Scanner2.SeqEntry))]),
        EntryWitnessed (S ++ [e]) p.1 p.2 := by
      intro p hp
      by_cases hfound : (assocFind sid lib).isSome
      · rw [if_pos hfound] at hp
        exact mono _ _ (h p hp)
      · rw [if_neg hfound] at hp
        rcases List.mem_append.mp hp with hp1 | hp1
        · exact mono _ _ (h p hp1)
        · rw [List.mem_singleton] at hp1
          subst hp1
          exact ⟨rfl, e, List.mem_append_right _ (List.mem_singleton_self e),
            hk, ty, hm⟩
    rcases mem_assocUpdate _ _ _ q hq with hq1 | ⟨v, hv, hqv⟩
    · exact hlib' q hq1
    · subst hqv
      obtain ⟨hid, e', he', hk', ty', hc'⟩ := hlib' (sid, v) hv
      exact ⟨hid, e', he', hk', ty', hc'⟩

theorem scan2_foldl_witnessed :
    ∀ (es : List FsEntry) (lib : Scanner2.Library) (S : List FsEntry),
      (∀ q ∈ lib, EntryWitnessed S q.1 q.2) →
      ∀ q ∈ es.foldl Scanner2.scanStep lib, EntryWitnessed (S ++ es) q.1 q.2 := by
  intro es
  induction es with
  | nil => intro lib S h; simpa using h
  | cons e r ih =>
    intro lib S h q hq
    simp only [List.foldl_cons] at hq
    have h3 := ih (Scanner2.scanStep lib e) (S ++ [e])
      (scanStep2_witnessed lib e S h) q hq
    have heq : (S ++ [e]) ++ r = S ++ e :: r := by simp
    rwa [heq] at h3

/-- C9 counterexample: the claim that every SequenceEntry produced by a scan
carries its captured sequence identifier in its `id` field fails for the
loose scanner of the main app variant, whose entries are `{ assets: {} }`
with no `id` (or `projectName`) field at all: scans of two files with
different captured sequence IDs (`01` and `02`) produce identical entry
values — the entry value cannot carry the captured identifier, which lives
only in the library key. -/
theorem C9_loose_no_id_counterexample :
    (App1.scanSequences [⟨"Seq01_View.jpg", "file"⟩]).map Prod.snd
      = (App1.scanSequences [⟨"Seq02_View.jpg", "file"⟩]).map Prod.snd
    ∧ (App1.scanSequences [⟨"Seq01_View.jpg", "file"⟩]).map Prod.fst
      ≠ (App1.scanSequences [⟨"Seq02_View.jpg", "file"⟩]).map Prod.fst := by
  constructor
  · decide
  · decide

/-- C9 (amended): every SequenceEntry produced by a scan of the STRICT
scanner carries its captured sequence identifier in its `id` field, and
carries a `projectName` captured (together with that identifier) from a file
of the scanned directory; the loose scanner's entries carry neither field —
they consist of the assets map alone, the sequence identifier living only in
the library key (see the counterexample). -/
theorem C9_entry_carries_captured_fields :
    ∀ (entries : List FsEntry) (sid : String) (en : Scanner2.SeqEntry),
      (sid, en) ∈ Scanner2.scanSequences entries →
      EntryWitnessed entries sid en := by
  intro entries sid en hmem
  have h := scan2_foldl_witnessed entries [] [] (by simp) (sid, en) hmem
  simpa using h

/-- C9 witness: the single entry scanned from `Project_X_Seq01_Script.txt`
carries `id = "01"` and the captured project name `X`. -/
theorem C9_entry_carries_captured_fields_witness :
    EntryWitnessed [⟨"Project_X_Seq01_Script.txt", "file"⟩] "01"
      ⟨"01", "X", [("script", "Project_X_Seq01_Script.txt")]⟩ :=
  C9_entry_carries_captured_fields
    [⟨"Project_X_Seq01_Script.txt", "file"⟩] "01"
    ⟨"01", "X", [("script", "Project_X_Seq01_Script.txt")]⟩ (by decide)

end VibeStudio

namespace VibeStudio

/-! ### Key growth of the loose scanner -/

theorem aKeys_scanStepL (lib : App1.Library) (e : FsEntry) :
    ∃ t, aKeys (App1.scanStep lib e) = aKeys lib ++ t := by
  unfold App1.scanStep
  split
  · cases hm : scanRecognizerP1 e.name with
    | none => exact ⟨[], by simp⟩
    | some sid =>
      simp only
      cases hf : assocFind sid lib with
      | some v =>
        simp only [hf, Option.isSome_some, if_true]
        split
        · exact ⟨[], by rw [aKeys_assocUpdate]; simp⟩
        · split
          · exact ⟨[], by rw [aKeys_assocUpdate]; simp⟩
          · exact ⟨[], by simp⟩
      | none =>
        simp only [hf, Option.isSome_none, Bool.false_eq_true, if_false]
        split
        · exact ⟨[sid], by rw [aKeys_assocUpdate, aKeys_append_single]⟩
        · split
          · exact ⟨[sid], by rw [aKeys_assocUpdate, aKeys_append_single]⟩
          · exact ⟨[sid], by rw [aKeys_append_single]⟩
  · exact ⟨[], by simp⟩

theorem sid_mem_scanStepL (lib : App1.Library) (e : FsEntry) (sid : String)
    (hk : e.kind = "file") (hrec : scanRecognizerP1 e.name = some sid) :
    sid ∈ aKeys (App1.scanStep lib e) := by
  unfold App1.scanStep
  rw [if_pos hk, hrec]
  simp only
  cases hf : assocFind sid lib with
  | some v =>
    have hin : sid ∈ aKeys lib := by
      by_contra hnot
      rw [← assocFind_eq_none_iff] at hnot
      rw [hf] at hnot
      exact Option.noConfusion hnot
    simp only [Option.isSome_some, if_true]
    split
    · rw [aKeys_assocUpdate]; exact hin
    · split
      · rw [aKeys_assocUpdate]; exact hin
      · exact hin
  | none =>
    simp only [Option.isSome_none, Bool.false_eq_true, if_false]
    have hin : sid ∈ aKeys (lib ++ [(sid, (⟨[]⟩ : App1.SeqEntry))]) := by
      rw [aKeys_append_single]
      exact List.mem_append_right _ (List.mem_singleton_self sid)
    split
    · rw [aKeys_assocUpdate]; exact hin
    · split
      · rw [aKeys_assocUpdate]; exact hin
      · exact hin

theorem aKeys_subset_foldL :
    ∀ (es : List FsEntry) (lib : App1.Library),
      aKeys lib ⊆ aKeys (es.foldl App1.scanStep lib) := by
  intro es
  induction es with
  | nil => intro lib x hx; exact hx
  | cons e r ih =>
    intro lib
    simp only [List.foldl_cons]
    obtain ⟨t, ht⟩ := aKeys_scanStepL lib e
    intro x hx
    exact ih (App1.scanStep lib e) (ht ▸ List.mem_append_left t hx)

theorem sid_mem_foldL :
    ∀ (es : List FsEntry) (lib : App1.Library) (e0 : FsEntry) (sid : String),
      e0 ∈ es → e0.kind = "file" → scanRecognizerP1 e0.name = some sid →
      sid ∈ aKeys (es.foldl App1.scanStep lib) := by
  intro es
  induction es with
  | nil => intro lib e0 sid hmem; exact absurd hmem (List.not_mem_nil e0)
  | cons e r ih =>
    intro lib e0 sid hmem hk hrec
    simp only [List.foldl_cons]
    rcases List.mem_cons.mp hmem with heq | hmem'
    · subst heq
      exact aKeys_subset_foldL r _ (sid_mem_scanStepL lib e0 sid hk hrec)
    · exact ih _ e0 sid hmem' hk hrec

/-- C10: under the loose-convention scanner, a file whose name contains
`Seq<digits>` but is not classifiable as any asset kind (its lowercased name
does not end in `.txt`) still causes a Library entry for that sequence ID to
exist after any scan that includes it; scanning just that file yields one
entry with an empty assets map, so the count of sequence entries can include
sequences that have no usable assets. -/
theorem C10_loose_unclassifiable_entry (n sid : String)
    (hrec : scanRecognizerP1 n = some sid)
    (hnotxt : endsWithL ".txt".data (lowerStr n).data = false) :
    App1.scanSequences [⟨n, "file"⟩] = [(sid, ⟨[]⟩)]
    ∧ (App1.scanSequences [⟨n, "file"⟩]).length = 1
    ∧ ∀ es : List FsEntry, (⟨n, "file"⟩ : FsEntry) ∈ es →
        sid ∈ aKeys (App1.scanSequences es) := by
  have hsingle : App1.scanSequences [⟨n, "file"⟩] = [(sid, ⟨[]⟩)] := by
    show App1.scanStep [] ⟨n, "file"⟩ = [(sid, ⟨[]⟩)]
    unfold App1.scanStep
    rw [if_pos rfl, hrec]
    simp [assocFind, hnotxt]
  refine ⟨hsingle, by rw [hsingle]; rfl, ?_⟩
  intro es hmem
  exact sid_mem_foldL es [] ⟨n, "file"⟩ sid hmem rfl hrec

/-- C10 witness: scanning `Seq01_View.jpg` alone yields one entry `01` with
no assets, and any directory containing that file has an entry `01`. -/
theorem C10_loose_unclassifiable_entry_witness :
    App1.scanSequences [⟨"Seq01_View.jpg", "file"⟩] = [("01", ⟨[]⟩)]
    ∧ (App1.scanSequences [⟨"Seq01_View.jpg", "file"⟩]).length = 1
    ∧ "01" ∈ aKeys (App1.scanSequences
        [⟨"cover.png", "file"⟩, ⟨"Seq01_View.jpg", "file"⟩]) := by
  have h := C10_loose_unclassifiable_entry "Seq01_View.jpg" "01"
    (by decide) (by decide)
  exact ⟨h.1, h.2.1, h.2.2 [⟨"cover.png", "file"⟩, ⟨"Seq01_View.jpg", "file"⟩]
    (by decide)⟩

end VibeStudio

namespace VibeStudio

/-! ### Soundness and completeness of the strict matcher's pieces -/

theorem ciStrip_sound :
    ∀ (lit s r : List Char), ciStrip lit s = some r →
      ∃ l, s = l ++ r ∧ l.map Char.toLower = lit := by
  intro lit
  induction lit with
  | nil =>
    intro s r h
    simp only [ciStrip] at h
    injection h with h1
    exact ⟨[], h1.symm ▸ rfl, rfl⟩
  | cons x ls ih =>
    intro s r h
    cases s with
    | nil => simp [ciStrip] at h
    | cons c cs =>
      simp only [ciStrip] at h
      split at h
      · rename_i hcl
        obtain ⟨l, hcs, hmap⟩ := ih cs r h
        exact ⟨c :: l, by rw [hcs]; rfl, by simp [hmap, hcl]⟩
      · exact Option.noConfusion h

theorem ciStrip_complete :
    ∀ (l lit r : List Char), l.map Char.toLower = lit →
      ciStrip lit (l ++ r) = some r := by
  intro l
  induction l with
  | nil =>
    intro lit r h
    simp only [List.map_nil] at h
    subst h
    rfl
  | cons c l' ih =>
    intro lit r h
    rw [List.map_cons] at h
    subst h
    simp only [List.cons_append, ciStrip, if_pos rfl]
    exact ih _ r rfl

theorem takeWhile_dropWhile_append (p : Char → Bool) :
    ∀ (d r : List Char), (∀ c ∈ d, p c = true) →
      (∀ c cs, r = c :: cs → p c = false) →
      (d ++ r).takeWhile p = d ∧ (d ++ r).dropWhile p = r := by
  intro d
  induction d with
  | nil =>
    intro r _ hr
    cases r with
    | nil => exact ⟨rfl, rfl⟩
    | cons c cs =>
      have hc := hr c cs rfl
      constructor
      · simp [List.takeWhile_cons, hc]
      · simp [List.dropWhile_cons, hc]
  | cons a d' ih =>
    intro r hd hr
    have ha : p a = true := hd a (List.mem_cons_self a d')
    have hrec := ih r (fun c hc => hd c (List.mem_cons_of_mem a hc)) hr
    constructor
    · simp [List.takeWhile_cons, ha, hrec.1]
    · simp [List.dropWhile_cons, ha, hrec.2]

theorem dropWhile_head_false (p : Char → Bool) :
    ∀ (s : List Char) (c : Char) (cs : List Char),
      s.dropWhile p = c :: cs → p c = false := by
  intro s
  induction s with
  | nil => intro c cs h; exact absurd h (by simp)
  | cons a s' ih =>
    intro c cs h
    by_cases ha : p a = true
    · rw [List.dropWhile_cons, if_pos ha] at h
      exact ih c cs h
    · rw [List.dropWhile_cons, if_neg ha] at h
      injection h with h1 h2
      subst h1
      exact Bool.not_eq_true _ ▸ ha

theorem extOk_sound (s : List Char) (h : extOk s = true) :
    ∃ e q, s = e ++ q ∧ ExtLower e := by
  unfold extOk at h
  simp only [Bool.or_eq_true, Option.isSome_iff_exists] at h
  rcases h with ((⟨r, hr⟩ | ⟨r, hr⟩) | ⟨r, hr⟩) | ⟨r, hr⟩ <;>
    obtain ⟨l, hs, hmap⟩ := ciStrip_sound _ s r hr
  · exact ⟨l, r, hs, Or.inl hmap⟩
  · exact ⟨l, r, hs, Or.inr (Or.inl hmap)⟩
  · exact ⟨l, r, hs, Or.inr (Or.inr (Or.inl hmap))⟩
  · exact ⟨l, r, hs, Or.inr (Or.inr (Or.inr hmap))⟩

theorem extOk_complete (e q : List Char) (h : ExtLower e) :
    extOk (e ++ q) = true := by
  unfold extOk
  rcases h with h | h | h | h <;> rw [ciStrip_complete e _ q h] <;> simp

end VibeStudio

namespace VibeStudio

theorem tailSeq_sound (s d w : List Char) (h : tailSeq s = some (d, w)) :
    ∃ sq e q, s = sq ++ (d ++ '_' :: (w ++ '.' :: (e ++ q)))
      ∧ sq.map Char.toLower = "_seq".data
      ∧ d ≠ [] ∧ (∀ c ∈ d, c.isDigit = true)
      ∧ w ≠ [] ∧ (∀ c ∈ w, isWordChar c = true)
      ∧ ExtLower e := by
  unfold tailSeq at h
  cases hstrip : ciStrip ['_', 's', 'e', 'q'] s with
  | none => rw [hstrip] at h; exact Option.noConfusion h
  | some r =>
    rw [hstrip] at h
    simp only at h
    by_cases hde : (r.takeWhile Char.isDigit).isEmpty = true
    · rw [if_pos hde] at h; exact Option.noConfusion h
    · rw [if_neg hde] at h
      cases hdrop : r.dropWhile Char.isDigit with
      | nil => rw [hdrop] at h; exact Option.noConfusion h
      | cons c r2 =>
        rw [hdrop] at h
        by_cases hc : c = '_'
        case neg =>
          exfalso
          revert h
          split
          · rename_i heq
            injection heq with h1 _
            exact fun _ => hc h1
          · exact fun hcontra => Option.noConfusion hcontra
        subst hc
        simp only at h
        by_cases hwe : (r2.takeWhile isWordChar).isEmpty = true
        · rw [if_pos hwe] at h; exact Option.noConfusion h
        · rw [if_neg hwe] at h
          cases hdrop2 : r2.dropWhile isWordChar with
          | nil => rw [hdrop2] at h; exact Option.noConfusion h
          | cons c2 r4 =>
            rw [hdrop2] at h
            by_cases hc2 : c2 = '.'
            case neg =>
              exfalso
              revert h
              split
              · rename_i heq
                injection heq with h1 _
                exact fun _ => hc2 h1
              · exact fun hcontra => Option.noConfusion hcontra
            subst hc2
            simp only at h
            by_cases hext : extOk r4 = true
            case neg => rw [if_neg hext] at h; exact Option.noConfusion h
            rw [if_pos hext] at h
            injection h with h1
            have hd : r.takeWhile Char.isDigit = d := congrArg Prod.fst h1
            have hw : r2.takeWhile isWordChar = w := congrArg Prod.snd h1
            obtain ⟨sq, hs, hsq⟩ := ciStrip_sound _ s r hstrip
            obtain ⟨e, q, hr4, hextl⟩ := extOk_sound r4 hext
            refine ⟨sq, e, q, ?_, hsq, ?_, ?_, ?_, ?_, hextl⟩
            · rw [hs]
              have hr : r = d ++ '_' :: r2 := by
                rw [← hd, ← hdrop]
                exact (List.takeWhile_append_dropWhile _ _).symm
              have hr2 : r2 = w ++ '.' :: r4 := by
                rw [← hw, ← hdrop2]
                exact (List.takeWhile_append_dropWhile _ _).symm
              rw [hr, hr2, hr4]
            · intro hdnil
              rw [hd, hdnil] at hde
              exact hde rfl
            · intro x hx
              rw [← hd] at hx
              exact List.mem_takeWhile_imp hx
            · intro hwnil
              rw [hw, hwnil] at hwe
              exact hwe rfl
            · intro x hx
              rw [← hw] at hx
              exact List.mem_takeWhile_imp hx

theorem tailSeq_complete (sq d w e q : List Char)
    (hsq : sq.map Char.toLower = "_seq".data)
    (hd : d ≠ []) (hdall : ∀ c ∈ d, c.isDigit = true)
    (hw : w ≠ []) (hwall : ∀ c ∈ w, isWordChar c = true)
    (hext : ExtLower e) :
    tailSeq (sq ++ (d ++ '_' :: (w ++ '.' :: (e ++ q)))) = some (d, w) := by
  have hd0 : d.isEmpty = false := by
    cases d with
    | nil => exact absurd rfl hd
    | cons a l => rfl
  have hw0 : w.isEmpty = false := by
    cases w with
    | nil => exact absurd rfl hw
    | cons a l => rfl
  have htd := takeWhile_dropWhile_append Char.isDigit d
    ('_' :: (w ++ '.' :: (e ++ q))) hdall
    (by intro c cs hc; injection hc with h1 _; subst h1; decide)
  have htw := takeWhile_dropWhile_append isWordChar w ('.' :: (e ++ q)) hwall
    (by intro c cs hc; injection hc with h1 _; subst h1; decide)
  have hext' := extOk_complete e q hext
  unfold tailSeq
  rw [ciStrip_complete sq _ _ hsq]
  simp only [htd.1, htd.2, hd0, Bool.false_eq_true, if_false, htw.1, htw.2,
    hw0, hext', if_true]

end VibeStudio

namespace VibeStudio

theorem dotStar_sound :
    ∀ (s a d w : List Char), dotStar s = some (a, d, w) →
      ∃ t, s = a ++ t ∧ (∀ c ∈ a, isDotChar c = true)
        ∧ tailSeq t = some (d, w) := by
  intro s
  induction s with
  | nil =>
    intro a d w h
    unfold dotStar at h
    cases ht : tailSeq [] with
    | none => rw [ht] at h; exact Option.noConfusion h
    | some p =>
      obtain ⟨p1, p2⟩ := p
      rw [ht] at h
      simp only [Option.map_some'] at h
      injection h with h1
      have ha : a = [] := (congrArg (fun x => x.1) h1).symm
      have hd : d = p1 := (congrArg (fun x => x.2.1) h1).symm
      have hw : w = p2 := (congrArg (fun x => x.2.2) h1).symm
      subst ha hd hw
      exact ⟨[], rfl, by simp, ht⟩
  | cons c r ih =>
    intro a d w h
    unfold dotStar at h
    by_cases hdot : isDotChar c = true
    · rw [if_pos hdot] at h
      cases hrec : dotStar r with
      | some p =>
        obtain ⟨a', d', w'⟩ := p
        rw [hrec] at h
        simp only at h
        injection h with h1
        have ha : a = c :: a' := (congrArg (fun x => x.1) h1).symm
        have hd : d = d' := (congrArg (fun x => x.2.1) h1).symm
        have hw : w = w' := (congrArg (fun x => x.2.2) h1).symm
        subst ha hd hw
        obtain ⟨t, hs, hall, ht⟩ := ih a' d w hrec
        refine ⟨t, by rw [hs]; rfl, ?_, ht⟩
        intro x hx
        rcases List.mem_cons.mp hx with hx1 | hx1
        · rw [hx1]; exact hdot
        · exact hall x hx1
      | none =>
        rw [hrec] at h
        cases ht : tailSeq (c :: r) with
        | none => rw [ht] at h; exact Option.noConfusion h
        | some p =>
          obtain ⟨p1, p2⟩ := p
          rw [ht] at h
          simp only [Option.map_some'] at h
          injection h with h1
          have ha : a = [] := (congrArg (fun x => x.1) h1).symm
          have hd : d = p1 := (congrArg (fun x => x.2.1) h1).symm
          have hw : w = p2 := (congrArg (fun x => x.2.2) h1).symm
          subst ha hd hw
          exact ⟨c :: r, rfl, by simp, ht⟩
    · rw [if_neg hdot] at h
      cases ht : tailSeq (c :: r) with
      | none => rw [ht] at h; exact Option.noConfusion h
      | some p =>
        obtain ⟨p1, p2⟩ := p
        rw [ht] at h
        simp only [Option.map_some'] at h
        injection h with h1
        have ha : a = [] := (congrArg (fun x => x.1) h1).symm
        have hd : d = p1 := (congrArg (fun x => x.2.1) h1).symm
        have hw : w = p2 := (congrArg (fun x => x.2.2) h1).symm
        subst ha hd hw
        exact ⟨c :: r, rfl, by simp, ht⟩

theorem dotStar_complete_of_tail :
    ∀ s : List Char, (tailSeq s).isSome = true → (dotStar s).isSome = true := by
  intro s h
  obtain ⟨p, hp⟩ := Option.isSome_iff_exists.mp h
  cases s with
  | nil =>
    unfold dotStar
    rw [hp]
    simp
  | cons c r =>
    unfold dotStar
    by_cases hdot : isDotChar c = true
    · rw [if_pos hdot]
      cases hrec : dotStar r with
      | some q => simp
      | none => rw [hp]; simp
    · rw [if_neg hdot]
      rw [hp]
      simp

theorem dotStar_complete :
    ∀ (a t : List Char), (∀ c ∈ a, isDotChar c = true) →
      (tailSeq t).isSome = true → (dotStar (a ++ t)).isSome = true := by
  intro a
  induction a with
  | nil => intro t _ h; exact dotStar_complete_of_tail t h
  | cons c a' ih =>
    intro t hall h
    have hdot : isDotChar c = true := hall c (List.mem_cons_self c a')
    show (dotStar (c :: (a' ++ t))).isSome = true
    unfold dotStar
    rw [if_pos hdot]
    cases hrec : dotStar (a' ++ t) with
    | some p => simp
    | none =>
      have hih := ih t (fun x hx => hall x (List.mem_cons_of_mem c hx)) h
      rw [hrec] at hih
      exact absurd hih (by simp)

theorem strictAt_sound (s : List Char) (caps : StrictCaps)
    (h : strictAt s = some caps) :
    ∃ pr r, s = pr ++ r ∧ pr.map Char.toLower = "project_".data
      ∧ dotStar r = some (caps.projectName, caps.seqId, caps.kindCap) := by
  unfold strictAt at h
  cases hstrip : ciStrip ['p', 'r', 'o', 'j', 'e', 'c', 't', '_'] s with
  | none => rw [hstrip] at h; exact Option.noConfusion h
  | some r =>
    rw [hstrip] at h
    simp only at h
    cases hds : dotStar r with
    | none => rw [hds] at h; exact Option.noConfusion h
    | some p =>
      obtain ⟨a, d, w⟩ := p
      rw [hds] at h
      simp only [Option.map_some'] at h
      injection h with h1
      obtain ⟨pr, hs, hmap⟩ := ciStrip_sound _ s r hstrip
      refine ⟨pr, r, hs, hmap, ?_⟩
      rw [hds, ← h1]

theorem strictAt_complete (pr r : List Char)
    (hmap : pr.map Char.toLower = "project_".data)
    (h : (dotStar r).isSome = true) : (strictAt (pr ++ r)).isSome = true := by
  unfold strictAt
  rw [ciStrip_complete pr _ r hmap]
  simp only
  obtain ⟨p, hp⟩ := Option.isSome_iff_exists.mp h
  rw [hp]
  simp

theorem strictFindL_sound :
    ∀ (s : List Char) (caps : StrictCaps), strictFindL s = some caps →
      ∃ p q, s = p ++ q ∧ strictAt q = some caps := by
  intro s
  induction s with
  | nil => intro caps h; exact Option.noConfusion h
  | cons c r ih =>
    intro caps h
    unfold strictFindL at h
    cases ha : strictAt (c :: r) with
    | some caps' =>
      rw [ha] at h
      injection h with h1
      subst h1
      exact ⟨[], c :: r, rfl, ha⟩
    | none =>
      rw [ha] at h
      obtain ⟨p, q, hs, hq⟩ := ih caps h
      exact ⟨c :: p, q, by rw [hs]; rfl, hq⟩

theorem strictFindL_complete :
    ∀ (p q : List Char), (strictAt q).isSome = true →
      (strictFindL (p ++ q)).isSome = true := by
  intro p
  induction p with
  | nil =>
    intro q h
    cases q with
    | nil =>
      unfold strictAt at h
      simp [ciStrip] at h
    | cons c r =>
      show (strictFindL (c :: r)).isSome = true
      unfold strictFindL
      obtain ⟨caps, hc⟩ := Option.isSome_iff_exists.mp h
      rw [hc]
      simp
  | cons c p' ih =>
    intro q h
    show (strictFindL (c :: (p' ++ q))).isSome = true
    unfold strictFindL
    cases ha : strictAt (c :: (p' ++ q)) with
    | some caps => simp
    | none => simpa using ih q h

end VibeStudio

namespace VibeStudio

/-! ### The strict recognizer matches exactly the names containing the
pattern -/

theorem strictFindL_isSome_iff_contains (s : List Char) :
    (strictFindL s).isSome = true ↔ ContainsSeqPattern s := by
  constructor
  · intro h
    obtain ⟨caps, hc⟩ := Option.isSome_iff_exists.mp h
    obtain ⟨p, q, hs, hq⟩ := strictFindL_sound s caps hc
    obtain ⟨pr, r, hqe, hmap, hds⟩ := strictAt_sound q caps hq
    obtain ⟨t, hre, hall, ht⟩ :=
      dotStar_sound r caps.projectName caps.seqId caps.kindCap hds
    obtain ⟨sq, e, qq, hte, hsq, hd, hdall, hw, hwall, hext⟩ :=
      tailSeq_sound t caps.seqId caps.kindCap ht
    refine ⟨p, pr, caps.projectName, sq, caps.seqId, caps.kindCap, e, qq,
      ?_, hmap, hall, hsq, hd, hdall, hw, hwall, hext⟩
    rw [hs, hqe, hre, hte]
    simp
  · rintro ⟨p, pr, a, sq, d, w, e, q, hs, hmap, hall, hsq, hd, hdall, hw,
      hwall, hext⟩
    have ht : (tailSeq (sq ++ (d ++ '_' :: (w ++ '.' :: (e ++ q))))).isSome
        = true := by
      rw [tailSeq_complete sq d w e q hsq hd hdall hw hwall hext]
      rfl
    have hds := dotStar_complete a _ hall ht
    have hat := strictAt_complete pr _ hmap hds
    have hfind := strictFindL_complete p _ hat
    have heq : p ++ (pr ++ (a ++ (sq ++ (d ++ '_' :: (w ++ '.' :: (e ++ q))))))
        = p ++ pr ++ a ++ sq ++ d ++ '_' :: w ++ '.' :: e ++ q := by simp
    rw [hs, ← heq]
    exact hfind

theorem scan2_single_some (n pn sid ty : String)
    (hc : SEQ_PATTERN_exec n = some (pn, sid, ty)) :
    Scanner2.scanSequences [⟨n, "file"⟩]
      = [(sid, ⟨sid, pn, [(lowerStr ty, n)]⟩)] := by
  show Scanner2.scanStep [] ⟨n, "file"⟩ = _
  unfold Scanner2.scanStep
  simp [hc, assocFind, assocUpdate, setAssoc]

/-- C2 counterexample: the claim that a filename produces a Library entry if
and only if it matches `Project_<name>_Seq<digits>_<kind>.<ext>` exactly is
false: `SEQ_PATTERN` is unanchored, so the filename
`xProject_A_Seq01_Script.txt` produces an entry although it does not match
the convention exactly. -/
theorem C2_exact_match_counterexample :
    Scanner2.scanSequences [⟨"xProject_A_Seq01_Script.txt", "file"⟩] ≠ []
    ∧ ¬ SpecStrictExact "xProject_A_Seq01_Script.txt".data := by
  constructor
  · decide
  · rintro ⟨pr, nm, sq, d, w, e, hs, hpr, -⟩
    cases pr with
    | nil => exact absurd hpr (by decide)
    | cons p0 pr' =>
      have h1 : List.head? ("xProject_A_Seq01_Script.txt".data) = some 'x' :=
        rfl
      have h3 := congrArg List.head? hs
      rw [h1] at h3
      have h4 : p0 = 'x' := by
        have h5 : some 'x' = some p0 := h3
        injection h5 with h6
        exact h6.symm
      have h7 := congrArg List.head? hpr
      have h8 : List.head? ((p0 :: pr').map Char.toLower)
          = some p0.toLower := rfl
      have h9 : List.head? ("project_".data) = some 'p' := rfl
      rw [h8, h9] at h7
      injection h7 with h10
      rw [h4] at h10
      exact absurd h10 (by decide)

/-- C2 (amended): a filename produces a Library entry under the strict
scanner if and only if it CONTAINS a substring matching
`Project_<name>_Seq<digits>_<kind>.<ext>` (case-insensitive, extension in
the fixed set txt/png/wav/mp4) — the source regular expression is
unanchored, so an exact whole-name match is not required; for every
recognized filename, scanning yields exactly one entry, keyed by the
captured sequence ID, holding the file under the lowercased captured kind,
with name, digits and kind taken from the regular expression's captures. -/
theorem C2_strict_convention_contains (n : String) :
    (Scanner2.scanSequences [⟨n, "file"⟩] ≠ [] ↔ ContainsSeqPattern n.data)
    ∧ (∀ pn sid ty, SEQ_PATTERN_exec n = some (pn, sid, ty) →
        Scanner2.scanSequences [⟨n, "file"⟩]
          = [(sid, ⟨sid, pn, [(lowerStr ty, n)]⟩)]) := by
  constructor
  · constructor
    · intro hne
      cases hf : strictFindL n.data with
      | none =>
        exfalso
        apply hne
        have hexec : SEQ_PATTERN_exec n = none := by
          unfold SEQ_PATTERN_exec
          rw [hf]
          rfl
        exact scan2_all_skip [⟨n, "file"⟩]
          (by intro e he; rw [List.mem_singleton] at he; subst he; exact hexec)
      | some caps =>
        exact (strictFindL_isSome_iff_contains n.data).mp (by rw [hf]; rfl)
    · intro hcontains
      have hsome := (strictFindL_isSome_iff_contains n.data).mpr hcontains
      obtain ⟨caps, hc⟩ := Option.isSome_iff_exists.mp hsome
      have hexec : SEQ_PATTERN_exec n
          = some (caps.projectName.asString, caps.seqId.asString,
              caps.kindCap.asString) := by
        unfold SEQ_PATTERN_exec
        rw [hc]
        rfl
      rw [scan2_single_some n _ _ _ hexec]
      simp
  · intro pn sid ty hc
    exact scan2_single_some n pn sid ty hc

/-- C2 witness: `Project_X_Seq01_Script.txt` is recognized, scans to exactly
one entry keyed `01` with the file under `script`, and indeed contains the
pattern. -/
theorem C2_strict_convention_contains_witness :
    Scanner2.scanSequences [⟨"Project_X_Seq01_Script.txt", "file"⟩]
      = [("01", ⟨"01", "X", [("script", "Project_X_Seq01_Script.txt")]⟩)]
    ∧ ContainsSeqPattern "Project_X_Seq01_Script.txt".data :=
  ⟨(C2_strict_convention_contains "Project_X_Seq01_Script.txt").2
      "X" "01" "Script" (by decide),
   (C2_strict_convention_contains "Project_X_Seq01_Script.txt").1.mp
      (by decide)⟩

end VibeStudio
